import Mathlib

/-!
Shallow embedding of yablochko8/color-finder-semantic-search.

The repository is a TypeScript ETL pipeline (src/script.ts) that reads a CSV
of named colors, validates each row, obtains a text embedding for the name,
and upserts (name, hex, flag, embedding) rows into a Supabase `colors` table,
plus a Mistral batch-update path (src/extras/addMistral.ts) and a vector
search RPC.  Effects are made explicit: the store is a `List DBRow`, the
embedding providers are function parameters, and JS `undefined` is `Option`.
-/

namespace ColorFinder

/-- Accumulator-passing core of `splitChar`: the accumulator holds the
characters of the current field in reverse. -/
def splitCharAux (sep : Char) : List Char → List Char → List String
  | [], acc => [String.mk acc.reverse]
  | c :: cs, acc =>
    if c = sep then String.mk acc.reverse :: splitCharAux sep cs []
    else splitCharAux sep cs (c :: acc)

/-- JS `s.split(sep)` for a one-character separator (the repository only
splits on `","` and `"\n"`): always returns at least one field, `"" ↦ [""]`,
and a trailing separator yields a trailing empty field.  Char-level
structural recursion so the kernel can evaluate it on literals. -/
def splitChar (sep : Char) (s : String) : List String :=
  splitCharAux sep s.toList []

/-- JS `s.replace("#", "")` replaces only the FIRST occurrence of `"#"`
(string pattern, not a global regex): drop the first `'#'` character, keep
everything else. -/
def removeFirstHash (s : String) : String :=
  String.mk (removeFirstHashAux s.toList)
where
  removeFirstHashAux : List Char → List Char
    | [] => []
    | c :: cs => if c = '#' then cs else c :: removeFirstHashAux cs

/-- JS `s.startsWith("#")` for the one-character prefix used by the code:
the first character is `'#'`. -/
def startsWithHash (s : String) : Bool :=
  match s.toList with
  | [] => false
  | c :: _ => c == '#'

/-- `RawColor` from src/script.ts.  The TS type declares `hex : string`, but
`readColorRow` destructures `rowText.split(",")`, so at runtime `hex` is
`undefined` when the line has no comma; `Option String` models that.
`name` is always a string (`split` returns at least one element), and
`is_good_name` is always a boolean (`undefined === "x"` is `false`). -/
structure RawColor where
  name : String
  hex : Option String
  is_good_name : Bool
deriving Repr, DecidableEq

/-- `PreppedColor` from src/script.ts: the validated, embedded record handed
to `saveColorEntry`.  The serialized embedding (`JSON.stringify` of the
provider's vector) is kept as an opaque `String`. -/
structure PreppedColor where
  name : String
  hex : String
  is_good_name : Bool
  embedding_small : String
deriving Repr, DecidableEq

/-- One row of the Supabase `colors` table (src/types/supabase.ts `Row`):
every data column other than `name` is nullable. -/
structure DBRow where
  name : String
  hex : Option String
  is_good_name : Option Bool
  embedding_small : Option String
  embedding_mistral_1024 : Option String
deriving Repr, DecidableEq

/-- `readColorRow` (src/script.ts): `const [name, hex, isGoodName] =
rowText.split(",")`; missing positions are `undefined`, and
`is_good_name := isGoodName === "x"`. -/
def readColorRow (rowText : String) : RawColor :=
  let parts := splitChar ',' rowText
  { name := parts.headD ""
    hex := parts.get? 1
    is_good_name := parts.get? 2 == some "x" }

/-- `validRawColor` (src/script.ts).  `validName` is `name.length > 0 &&
name.length < 100`; `validHex` is `hex.length === 7 && hex.startsWith("#")`.
When `hex` is `undefined` the line `const validHex = rawColor.hex.length ...`
throws a TypeError before any boolean is returned, so the total embedding
yields `none` in that case (`validIsGoodName` is always `true`: the field is
a boolean by construction). -/
def validRawColor (rawColor : RawColor) : Option Bool :=
  let validName := decide (0 < rawColor.name.length) && decide (rawColor.name.length < 100)
  match rawColor.hex with
  | none => none
  | some h => some (validName && (decide (h.length = 7) && startsWithHash h))

/-- `prepColorEntry` (src/script.ts): throws on an invalid raw color (and
propagates the TypeError thrown by `validRawColor` on an absent hex),
otherwise requests an embedding for the name and strips the first `#` from
the hex.  `embed` models `getEmbedding`: `none` is a provider failure
(thrown), `some e` the serialized vector.  All throws collapse to `none`. -/
def prepColorEntry (embed : String → Option String) (rawColor : RawColor) :
    Option PreppedColor :=
  match validRawColor rawColor with
  | none => none
  | some false => none
  | some true =>
    match embed rawColor.name with
    | none => none
    | some e =>
      some { name := rawColor.name
             hex := removeFirstHash (rawColor.hex.getD "")
             is_good_name := rawColor.is_good_name
             embedding_small := e }

/-- `saveColorEntry` (src/script.ts): `upsert(preppedColor, { onConflict:
"name" })`.  On a name conflict the supplied columns are overwritten and
`embedding_mistral_1024` is untouched; otherwise a fresh row is inserted
with the unsupplied column null.  The `colors` table has a unique index on
`name`, so at most one stored row can conflict; the model updates every
matching row, which coincides with the database on any store with distinct
names. -/
def saveColorEntry (p : PreppedColor) (store : List DBRow) : List DBRow :=
  if store.any (fun r => r.name == p.name) then
    store.map (fun r =>
      if r.name == p.name then
        { r with hex := some p.hex
                 is_good_name := some p.is_good_name
                 embedding_small := some p.embedding_small }
      else r)
  else
    store ++ [{ name := p.name
                hex := some p.hex
                is_good_name := some p.is_good_name
                embedding_small := some p.embedding_small
                embedding_mistral_1024 := none }]

/-- `getColorRows` (src/script.ts): split the file on newlines, drop the
header when `omitHeader`, and apply `maxRows ? rows.slice(0, maxRows) :
rows`.  JS truthiness: `maxRows = 0` (and `undefined`) takes the
no-truncation branch. -/
def getColorRows (file : String) (omitHeader : Bool) (maxRows : Option Nat) :
    List String :=
  let rows := splitChar '\n' file
  let contentRows := if omitHeader then rows.drop 1 else rows
  match maxRows with
  | some m => if m = 0 then contentRows else contentRows.take m
  | none => contentRows

/-- One iteration of the `runFullScript` loop body (src/script.ts): read the
row, prepare it, save it; any throw is caught, logged as an error for that
row, and the loop continues.  State is (store, number of logged errors). -/
def processRow (embed : String → Option String) (st : List DBRow × Nat)
    (rowText : String) : List DBRow × Nat :=
  match prepColorEntry embed (readColorRow rowText) with
  | some p => (saveColorEntry p st.1, st.2)
  | none => (st.1, st.2 + 1)

/-- `runFullScript` (src/script.ts): fold the per-row try/catch body over
the selected rows, starting from a store state and a zero error count.  The
CSV file content is a parameter (the source reads `COLORS_CSV_PATH`). -/
def runFullScript (embed : String → Option String) (file : String)
    (maxRows : Option Nat) : List DBRow × Nat :=
  (getColorRows file true maxRows).foldl (processRow embed) ([], 0)

/-- `getColorNames` (src/extras/addMistral.ts): split on newlines, drop the
header, return `[]` when `startRow` is past the end, otherwise
`slice(startRow, min(stopRow, length))` and take the first comma field of
each row (`row.split(",")[0]`, always defined). -/
def getColorNames (file : String) (omitHeader : Bool) (startRow stopRow : Nat) :
    List String :=
  let rows := splitChar '\n' file
  let contentRows := if omitHeader then rows.drop 1 else rows
  if contentRows.length ≤ startRow then []
  else
    let adjustedStopRow := min stopRow contentRows.length
    ((contentRows.take adjustedStopRow).drop startRow).map
      (fun row => (splitChar ',' row).headD "")

/-- `MistralUpdate` (src/extras/addMistral.ts).  The TS type declares
`embedding_mistral_1024 : string`, but the value is
`JSON.stringify(output.embedding)`, which is `undefined` when the response
entry carries no `embedding` field; `Option String` models that. -/
structure MistralUpdate where
  name : String
  embedding_mistral_1024 : Option String
deriving Repr, DecidableEq

/-- One entry of the Mistral embeddings response (`response.data` element in
src/extras/addMistral.ts): an `object` tag, an optional `index`, and an
optional serialized vector payload. -/
structure MistralOutput where
  object : String
  index : Option Nat
  embedding : Option String
deriving Repr, DecidableEq

/-- `getEmbeddingMistral` (src/extras/addMistral.ts).  The provider response
is a parameter.  An empty (or absent) `response.data` logs and returns `[]`;
otherwise entries are filtered to `object === "embedding" && index !==
undefined` and each valid entry is paired with `inputs[output.index!]`.
JS out-of-range indexing yields `undefined`; the model returns `""` there —
the theorems below only concern in-range indices. -/
def getEmbeddingMistral (inputs : List String) (response : List MistralOutput) :
    List MistralUpdate :=
  if response.length = 0 then []
  else
    let validOutputs := response.filter
      (fun o => o.object == "embedding" && o.index.isSome)
    validOutputs.map (fun o =>
      { name := inputs.getD (o.index.getD 0) ""
        embedding_mistral_1024 := o.embedding })

/-- One-row effect of `saveEmbeddingsToDB`'s `upsert(updates, { onConflict:
"name" })` (src/extras/addMistral.ts): on a name conflict only the supplied
columns are overwritten (an absent serialized embedding is dropped from the
payload by JSON serialization, leaving the column untouched); a fresh name
inserts a row whose other data columns are null. -/
def upsertMistralRow (u : MistralUpdate) (store : List DBRow) : List DBRow :=
  if store.any (fun r => r.name == u.name) then
    store.map (fun r =>
      if r.name == u.name then
        { r with embedding_mistral_1024 :=
            match u.embedding_mistral_1024 with
            | some e => some e
            | none => r.embedding_mistral_1024 }
      else r)
  else
    store ++ [{ name := u.name
                hex := none
                is_good_name := none
                embedding_small := none
                embedding_mistral_1024 := u.embedding_mistral_1024 }]

/-- `saveEmbeddingsToDB` (src/extras/addMistral.ts): one multi-row upsert on
conflict target `name`, row by row in payload order. -/
def saveEmbeddingsToDB (updates : List MistralUpdate) (store : List DBRow) :
    List DBRow :=
  updates.foldl (fun s u => upsertMistralRow u s) store

/-- `addMistralEmbedding`'s write (the single-name Mistral path):
`update({ embedding_mistral_1024 }).eq("name", inputText)` — updates
matching rows only, never inserts. -/
def updateMistralByName (inputText : String) (emb : String)
    (store : List DBRow) : List DBRow :=
  store.map (fun r =>
    if r.name == inputText then { r with embedding_mistral_1024 := some emb }
    else r)

/-- `updateCycle` (src/extras/addMistral.ts) with the provider modelled as a
function `f` returning one valid embedding per input, in input order (the
aligned provider response: entry `i` has `object = "embedding"`, `index = i`,
and a payload).  An empty name range returns the store unchanged. -/
def updateCycleModel (f : String → String) (file : String)
    (startRow stopRow : Nat) (store : List DBRow) : List DBRow :=
  let colorNames := getColorNames file true startRow stopRow
  if colorNames.length = 0 then store
  else
    saveEmbeddingsToDB
      (colorNames.map (fun n => { name := n, embedding_mistral_1024 := some (f n) }))
      store

/-- One result row of the search RPC (src/types/supabase.ts
`Functions.search_embedding_*.Returns`).  Distances are modelled over `Int`
(an abstract comparable score; no claim depends on their numeric values). -/
structure SearchResult where
  name : String
  hex : Option String
  is_good_name : Option Bool
  distance : Int
deriving Repr, DecidableEq

/-- Modelled from the spec: the bodies of the RPC functions
`search_embedding_mistral_1024` / `search_embedding_openai_1536` live in the
database, not under src; src only holds their declared signatures
(src/types/supabase.ts) and callers.  COOKBOOK.md shows the SQL shape:
select the stored rows ordered ascending by `embedding <#> query_embedding`,
limit to `match_count`, and project (name, hex, is_good_name, distance).
`dist` is the distance of a stored row to the fixed query embedding;
`List.insertionSort` is a stable sort, realising the spec's deterministic
tie-break by stored order. -/
def searchEmbedding (dist : DBRow → Int) (matchCount : Nat)
    (store : List DBRow) : List SearchResult :=
  ((store.insertionSort (fun a b => dist a ≤ dist b)).take matchCount).map
    (fun r => { name := r.name
                hex := r.hex
                is_good_name := r.is_good_name
                distance := dist r })


/-! ### Theorems -/

/-- C8: the curation marker maps to the flag via `isGoodName === "x"`: the
claim that ANY non-empty third field yields `is_good_name = true` fails at
the concrete row `"a,#aaaaaa,y"`, whose marker `"y"` is non-empty yet maps
to `false`. -/
theorem readColorRow_nonempty_marker_counterexample :
    (readColorRow "a,#aaaaaa,y").is_good_name = false ∧ "y" ≠ "" := by
  decide

/-- C8 (amended): `readColorRow` sets `is_good_name = true` exactly when the
third comma field is the specific marker string `"x"`; any other third field
(including other non-empty markers) and an absent third field map to
`false`. -/
theorem readColorRow_marker_iff_x (rowText : String) :
    (readColorRow rowText).is_good_name = true ↔
      (splitChar ',' rowText).get? 2 = some "x" := by
  simp [readColorRow]

/-- C3: the claim that a hex field failing the 6-hex-digit shape is rejected
fails at the concrete row `⟨"a", "#zzzzzz"⟩`: `"#zzzzzz"` contains no hex
digit at all, yet `validRawColor` accepts it (only length 7 and the leading
`#` are checked) and `prepColorEntry` passes it on toward the store. -/
theorem validRawColor_non_hex_digits_counterexample :
    validRawColor ⟨"a", some "#zzzzzz", false⟩ = some true ∧
    prepColorEntry (fun _ => some "[0.1]") ⟨"a", some "#zzzzzz", false⟩ =
      some ⟨"a", "zzzzzz", false, "[0.1]"⟩ := by
  decide

/-- C3 (amended): for a raw row whose hex field is present, a name of length
0 or ≥ 100, or a hex value that is not exactly 7 characters starting with
`#`, makes `validRawColor` return `false` and `prepColorEntry` reject the
row, so it is never passed to `saveColorEntry`; membership of the remaining
six characters in the hex digits is NOT checked. -/
theorem validRawColor_rejects (raw : RawColor) (h : String)
    (hhex : raw.hex = some h)
    (hbad : raw.name.length = 0 ∨ 100 ≤ raw.name.length ∨
      h.length ≠ 7 ∨ startsWithHash h = false) :
    validRawColor raw = some false ∧
      ∀ embed, prepColorEntry embed raw = none := by
  have hv : validRawColor raw = some false := by
    unfold validRawColor
    rw [hhex]
    rcases hbad with h0 | h100 | h7 | hsw
    · simp [h0]
    · simp [Nat.not_lt_of_le h100]
    · simp [h7]
    · simp [hsw]
  refine ⟨hv, fun embed => ?_⟩
  unfold prepColorEntry
  rw [hv]

/-- C3 witness: the empty-name row with a well-shaped hex is rejected. -/
theorem validRawColor_rejects_witness :
    validRawColor ⟨"", some "#aaaaaa", false⟩ = some false ∧
    prepColorEntry (fun _ => some "[0.1]") ⟨"", some "#aaaaaa", false⟩ = none := by
  exact ⟨(validRawColor_rejects ⟨"", some "#aaaaaa", false⟩ "#aaaaaa" rfl
            (Or.inl (by decide))).1,
         (validRawColor_rejects ⟨"", some "#aaaaaa", false⟩ "#aaaaaa" rfl
            (Or.inl (by decide))).2 _⟩

/-- C10: on a source line with no comma (a single split field — for example
the empty trailing line left by splitting a newline-terminated file), the
record produced by `readColorRow` has an absent hex field, and
`validRawColor` does not evaluate to a boolean rejection: the field access
on the absent hex yields `none`, not `some false`. -/
theorem validRawColor_none_on_missing_hex (line : String)
    (hone : (splitChar ',' line).length ≤ 1) :
    (readColorRow line).hex = none ∧
      validRawColor (readColorRow line) = none := by
  have hhex : (readColorRow line).hex = none := by
    simp only [readColorRow]
    exact List.get?_eq_none.mpr hone
  refine ⟨hhex, ?_⟩
  unfold validRawColor
  rw [hhex]

/-- C10 witness: a file ending in a newline really produces an empty
trailing row, and that row's record has no hex and no boolean verdict. -/
theorem validRawColor_none_on_missing_hex_witness :
    getColorRows "h\na,#aaaaaa,x\n" true none = ["a,#aaaaaa,x", ""] ∧
    (splitChar ',' "").length ≤ 1 ∧
    (readColorRow "").hex = none ∧
    validRawColor (readColorRow "") = none := by
  exact ⟨by decide, by decide,
         (validRawColor_none_on_missing_hex "" (by decide)).1,
         (validRawColor_none_on_missing_hex "" (by decide)).2⟩

/-- C2: when every response entry is a well-formed embedding carrying an
explicit in-range index, each update produced by `getEmbeddingMistral`
pairs that entry's payload with the input name at the POSITION NAMED BY THE
ENTRY'S INDEX FIELD in the original input list — not with the name at the
entry's position in the response order. -/
theorem getEmbeddingMistral_pairs_by_index (inputs : List String)
    (response : List MistralOutput)
    (hwf : ∀ o ∈ response, o.object = "embedding" ∧
      ∃ i, o.index = some i ∧ i < inputs.length) :
    ∀ u ∈ getEmbeddingMistral inputs response,
      ∃ o ∈ response, ∃ i, o.index = some i ∧ i < inputs.length ∧
        u.name = inputs.getD i "" ∧ u.embedding_mistral_1024 = o.embedding := by
  intro u hu
  unfold getEmbeddingMistral at hu
  by_cases hlen : response.length = 0
  · simp [hlen] at hu
  · simp only [if_neg hlen] at hu
    obtain ⟨o, ho, rfl⟩ := List.mem_map.mp hu
    have homem : o ∈ response := List.mem_of_mem_filter ho
    obtain ⟨hobj, i, hidx, hilt⟩ := hwf o homem
    exact ⟨o, homem, i, hidx, hilt, by simp [hidx], rfl⟩

/-- C2 witness: a permuted, partial response (indices 2 then 0 out of three
inputs) is re-associated by index: the first update carries the THIRD input
name, and the theorem certifies the index-based pairing for it. -/
theorem getEmbeddingMistral_pairs_by_index_witness :
    getEmbeddingMistral ["a", "b", "c"]
        [⟨"embedding", some 2, some "E2"⟩, ⟨"embedding", some 0, some "E0"⟩] =
      [⟨"c", some "E2"⟩, ⟨"a", some "E0"⟩] ∧
    (∃ o ∈ [MistralOutput.mk "embedding" (some 2) (some "E2"),
            MistralOutput.mk "embedding" (some 0) (some "E0")],
      ∃ i, o.index = some i ∧ i < (["a", "b", "c"] : List String).length ∧
        (MistralUpdate.mk "c" (some "E2")).name = ["a", "b", "c"].getD i "" ∧
        (MistralUpdate.mk "c" (some "E2")).embedding_mistral_1024 = o.embedding) := by
  exact ⟨by decide,
         getEmbeddingMistral_pairs_by_index ["a", "b", "c"] _ (by decide) _ (by decide)⟩

/-- C9: the claim that a per-item provider failure is reported and
distinguishable from a total request failure fails concretely: a malformed
entry for the only input is silently filtered out, and the result `[]` is
the very same value returned for a totally failed request (empty response);
a partially failed batch likewise returns only the surviving updates with no
failure marker for the dropped input. -/
theorem getEmbeddingMistral_silent_omission_counterexample :
    getEmbeddingMistral ["a"] [⟨"error", some 0, some "X"⟩] = [] ∧
    getEmbeddingMistral ["a"] [] = [] ∧
    getEmbeddingMistral ["a", "b"] [⟨"embedding", some 0, some "E0"⟩] =
      [⟨"a", some "E0"⟩] := by
  decide

/-- C9 (amended): `getEmbeddingMistral` silently omits failed items: the
result holds exactly one update per valid response entry (no per-item
failure reports), and a batch in which every entry is unusable returns `[]`,
the same value as a total request failure. -/
theorem getEmbeddingMistral_silent_omission (inputs : List String)
    (response : List MistralOutput) :
    (getEmbeddingMistral inputs response).length =
      (response.filter (fun o => o.object == "embedding" && o.index.isSome)).length ∧
    ((∀ o ∈ response, ¬(o.object = "embedding" ∧ o.index.isSome = true)) →
      getEmbeddingMistral inputs response = []) := by
  constructor
  · unfold getEmbeddingMistral
    by_cases hlen : response.length = 0
    · rw [List.length_eq_zero] at hlen
      simp [hlen]
    · have hne : response ≠ [] := by
        simpa [List.length_eq_zero] using hlen
      simp [hne]
  · intro hall
    unfold getEmbeddingMistral
    by_cases hlen : response.length = 0
    · simp [hlen]
    · have hfil : response.filter
          (fun o => o.object == "embedding" && o.index.isSome) = [] := by
        refine List.filter_eq_nil_iff.mpr fun o ho => ?_
        have := hall o ho
        simp only [Bool.and_eq_true, beq_iff_eq]
        intro hc
        exact this hc
      simp [if_neg hlen, hfil]

/-- C9 witness: the amended description evaluated on the malformed
single-entry response. -/
theorem getEmbeddingMistral_silent_omission_witness :
    (getEmbeddingMistral ["a"] [⟨"error", some 0, some "X"⟩]).length =
      (([⟨"error", some 0, some "X"⟩] : List MistralOutput).filter
        (fun o => o.object == "embedding" && o.index.isSome)).length ∧
    getEmbeddingMistral ["a"] [⟨"error", some 0, some "X"⟩] = [] := by
  exact ⟨(getEmbeddingMistral_silent_omission ["a"] _).1,
         (getEmbeddingMistral_silent_omission ["a"] _).2 (by decide)⟩


/-- Mapping a function that fixes every member of a list is the identity. -/
theorem list_map_id_of_mem {α : Type} {f : α → α} :
    ∀ {l : List α}, (∀ a ∈ l, f a = a) → l.map f = l
  | [], _ => rfl
  | a :: l, h => by
    rw [List.map_cons, h a (List.mem_cons_self a l),
      list_map_id_of_mem (fun x hx => h x (List.mem_cons_of_mem a hx))]

/-- The row rewrite applied by `saveColorEntry` on a name conflict. -/
theorem saveColorEntry_updatesRow (p : PreppedColor) (r : DBRow) :
    (if r.name == p.name then
      { r with hex := some p.hex
               is_good_name := some p.is_good_name
               embedding_small := some p.embedding_small }
     else r).name = r.name := by
  by_cases h : r.name == p.name <;> simp [h]

/-- After a `saveColorEntry`, some stored row carries the written name. -/
theorem saveColorEntry_any (p : PreppedColor) (s : List DBRow) :
    (saveColorEntry p s).any (fun r => r.name == p.name) = true := by
  by_cases h : s.any (fun r => r.name == p.name)
  · simp only [saveColorEntry, if_pos h]
    rw [List.any_map]
    have hcomp : ((fun r : DBRow => r.name == p.name) ∘
        (fun r : DBRow => if r.name == p.name then
          { r with hex := some p.hex
                   is_good_name := some p.is_good_name
                   embedding_small := some p.embedding_small }
         else r)) = fun r : DBRow => r.name == p.name := by
      funext r
      simp only [Function.comp_apply]
      rw [saveColorEntry_updatesRow]
    rw [hcomp]
    exact h
  · simp only [saveColorEntry, if_neg h]
    rw [List.any_append]
    simp

/-- The conflict rewrite of `saveColorEntry` is idempotent on rows. -/
theorem saveColorEntry_updatesRow_idem (p : PreppedColor) (r : DBRow) :
    (fun r : DBRow => if r.name == p.name then
      { r with hex := some p.hex
               is_good_name := some p.is_good_name
               embedding_small := some p.embedding_small }
     else r) ((fun r : DBRow => if r.name == p.name then
      { r with hex := some p.hex
               is_good_name := some p.is_good_name
               embedding_small := some p.embedding_small }
     else r) r) = (fun r : DBRow => if r.name == p.name then
      { r with hex := some p.hex
               is_good_name := some p.is_good_name
               embedding_small := some p.embedding_small }
     else r) r := by
  by_cases h : r.name == p.name <;> simp [h]

/-- A name-keyed count is one when the key occurs among pairwise-distinct
names. -/
theorem countP_name_one :
    ∀ (s : List DBRow) (x : String), (s.map DBRow.name).Nodup →
      s.any (fun r => r.name == x) = true →
      s.countP (fun r => r.name == x) = 1
  | [], x, _, hany => by simp at hany
  | r :: rest, x, hnd, hany => by
    rw [List.map_cons, List.nodup_cons] at hnd
    rw [List.countP_cons]
    by_cases h : (r.name == x) = true
    · have hzero : rest.countP (fun t => t.name == x) = 0 := by
        refine List.countP_eq_zero.mpr fun a ha hpa => hnd.1 ?_
        have hax : a.name = x := beq_iff_eq.mp hpa
        have hrx : r.name = x := beq_iff_eq.mp h
        rw [hrx, ← hax]
        exact List.mem_map_of_mem DBRow.name ha
      simp [h, hzero]
    · rw [List.any_cons] at hany
      have hrest : rest.any (fun t => t.name == x) = true := by
        simpa [h] using hany
      simp [h, countP_name_one rest x hnd.2 hrest]

/-- C5: upserting the same validated record twice is idempotent on stores,
and on a store with pairwise-distinct names (the unique-name constraint of
the `colors` table) it leaves exactly one row carrying the record's name,
holding the written hex, flag and embedding, with the names still pairwise
distinct — never a duplicate. -/
theorem saveColorEntry_idempotent_unique (p : PreppedColor) (s : List DBRow)
    (hnd : (s.map DBRow.name).Nodup) :
    saveColorEntry p (saveColorEntry p s) = saveColorEntry p s ∧
    (saveColorEntry p (saveColorEntry p s)).countP (fun r => r.name == p.name) = 1 ∧
    (∀ r ∈ saveColorEntry p (saveColorEntry p s), r.name = p.name →
      r.hex = some p.hex ∧ r.is_good_name = some p.is_good_name ∧
        r.embedding_small = some p.embedding_small) ∧
    ((saveColorEntry p (saveColorEntry p s)).map DBRow.name).Nodup := by
  have hany := saveColorEntry_any p s
  have hidem : saveColorEntry p (saveColorEntry p s) = saveColorEntry p s := by
    conv_lhs => rw [saveColorEntry]
    rw [if_pos hany]
    refine list_map_id_of_mem fun r hr => ?_
    by_cases hs : s.any (fun t => t.name == p.name) = true
    · rw [saveColorEntry, if_pos hs] at hr
      obtain ⟨r0, _, rfl⟩ := List.mem_map.mp hr
      exact saveColorEntry_updatesRow_idem p r0
    · rw [saveColorEntry, if_neg hs] at hr
      have hall : ∀ x ∈ s, ¬(x.name == p.name) = true := by
        intro x hx hpx
        exact hs (List.any_eq_true.mpr ⟨x, hx, hpx⟩)
      rcases List.mem_append.mp hr with hleft | hright
      · rw [if_neg (hall r hleft)]
      · have hrnew : r = ⟨p.name, some p.hex, some p.is_good_name,
            some p.embedding_small, none⟩ := by simpa using hright
        subst hrnew
        simp
  have hcount : (saveColorEntry p s).countP (fun r => r.name == p.name) = 1 := by
    by_cases hs : s.any (fun t => t.name == p.name) = true
    · rw [saveColorEntry, if_pos hs, List.countP_map]
      have hcomp : ((fun r : DBRow => r.name == p.name) ∘
          (fun r : DBRow => if r.name == p.name then
            { r with hex := some p.hex
                     is_good_name := some p.is_good_name
                     embedding_small := some p.embedding_small }
           else r)) = fun r : DBRow => r.name == p.name := by
        funext r
        simp only [Function.comp_apply]
        rw [saveColorEntry_updatesRow]
      rw [hcomp]
      exact countP_name_one s p.name hnd hs
    · have hall : ∀ x ∈ s, ¬(x.name == p.name) = true := by
        intro x hx hpx
        exact hs (List.any_eq_true.mpr ⟨x, hx, hpx⟩)
      rw [saveColorEntry, if_neg hs, List.countP_append,
        List.countP_eq_zero.mpr hall]
      simp
  have hvalues : ∀ r ∈ saveColorEntry p s, r.name = p.name →
      r.hex = some p.hex ∧ r.is_good_name = some p.is_good_name ∧
        r.embedding_small = some p.embedding_small := by
    intro r hr hname
    by_cases hs : s.any (fun t => t.name == p.name) = true
    · rw [saveColorEntry, if_pos hs] at hr
      obtain ⟨r0, _, rfl⟩ := List.mem_map.mp hr
      by_cases hr0 : (r0.name == p.name) = true
      · simp [hr0]
      · rw [if_neg hr0] at hname ⊢
        exact absurd (beq_iff_eq.mpr hname) hr0
    · rw [saveColorEntry, if_neg hs] at hr
      have hall : ∀ x ∈ s, ¬(x.name == p.name) = true := by
        intro x hx hpx
        exact hs (List.any_eq_true.mpr ⟨x, hx, hpx⟩)
      rcases List.mem_append.mp hr with hleft | hright
      · exact absurd (beq_iff_eq.mpr hname) (hall r hleft)
      · have hrnew : r = ⟨p.name, some p.hex, some p.is_good_name,
            some p.embedding_small, none⟩ := by simpa using hright
        subst hrnew
        exact ⟨rfl, rfl, rfl⟩
  have hnodup : ((saveColorEntry p s).map DBRow.name).Nodup := by
    by_cases hs : s.any (fun t => t.name == p.name) = true
    · rw [saveColorEntry, if_pos hs, List.map_map]
      have hcomp : (DBRow.name ∘
          (fun r : DBRow => if r.name == p.name then
            { r with hex := some p.hex
                     is_good_name := some p.is_good_name
                     embedding_small := some p.embedding_small }
           else r)) = DBRow.name := by
        funext r
        simp only [Function.comp_apply]
        rw [saveColorEntry_updatesRow]
      rw [hcomp]
      exact hnd
    · have hall : ∀ x ∈ s, ¬(x.name == p.name) = true := by
        intro x hx hpx
        exact hs (List.any_eq_true.mpr ⟨x, hx, hpx⟩)
      rw [saveColorEntry, if_neg hs, List.map_append]
      rw [List.nodup_append]
      refine ⟨hnd, List.nodup_singleton _, ?_⟩
      intro x hx hx1
      have hxp : x = p.name := by simpa using hx1
      obtain ⟨r0, hr0, rfl⟩ := List.mem_map.mp hx
      exact hall r0 hr0 (beq_iff_eq.mpr hxp)
  rw [hidem]
  exact ⟨rfl, hcount, hvalues, hnodup⟩

/-- C5 witness: writing the record `"a"` twice into a one-row store keeps
store equality with the single write, one matching row, and distinct
names. -/
theorem saveColorEntry_idempotent_unique_witness :
    ((([⟨"b", some "bbbbbb", some false, some "F", none⟩] :
        List DBRow).map DBRow.name).Nodup) ∧
    saveColorEntry ⟨"a", "aaaaaa", true, "E"⟩
        (saveColorEntry ⟨"a", "aaaaaa", true, "E"⟩
          [⟨"b", some "bbbbbb", some false, some "F", none⟩]) =
      saveColorEntry ⟨"a", "aaaaaa", true, "E"⟩
        [⟨"b", some "bbbbbb", some false, some "F", none⟩] ∧
    (saveColorEntry ⟨"a", "aaaaaa", true, "E"⟩
        (saveColorEntry ⟨"a", "aaaaaa", true, "E"⟩
          [⟨"b", some "bbbbbb", some false, some "F", none⟩])).countP
      (fun r => r.name == "a") = 1 := by
  refine ⟨by decide, ?_, ?_⟩
  · exact (saveColorEntry_idempotent_unique ⟨"a", "aaaaaa", true, "E"⟩
      [⟨"b", some "bbbbbb", some false, some "F", none⟩] (by decide)).1
  · exact (saveColorEntry_idempotent_unique ⟨"a", "aaaaaa", true, "E"⟩
      [⟨"b", some "bbbbbb", some false, some "F", none⟩] (by decide)).2.1


/-- A Mistral upsert never loses a stored name: any name present before
`upsertMistralRow` is still present after it. -/
theorem upsertMistralRow_keeps_names (u : MistralUpdate) (s : List DBRow)
    (x : String) (hx : ∃ r ∈ s, r.name = x) :
    ∃ r ∈ upsertMistralRow u s, r.name = x := by
  obtain ⟨r, hr, hname⟩ := hx
  unfold upsertMistralRow
  by_cases h : (s.any fun t => t.name == u.name) = true
  · rw [if_pos h]
    refine ⟨_, List.mem_map_of_mem _ hr, ?_⟩
    by_cases hru : (r.name == u.name) = true
    · rw [if_pos hru]
      exact hname
    · rw [if_neg hru]
      exact hname
  · rw [if_neg h]
    exact ⟨r, List.mem_append_left _ hr, hname⟩

/-- When the upserted name already exists, `upsertMistralRow` touches only
the embedding column: presence of hex values is preserved. -/
theorem upsertMistralRow_keeps_hex (u : MistralUpdate) (s : List DBRow)
    (hmem : ∃ r ∈ s, r.name = u.name)
    (hhex : ∀ r ∈ s, r.hex.isSome = true) :
    ∀ r ∈ upsertMistralRow u s, r.hex.isSome = true := by
  have hany : (s.any fun t => t.name == u.name) = true := by
    obtain ⟨r, hr, hname⟩ := hmem
    exact List.any_eq_true.mpr ⟨r, hr, beq_iff_eq.mpr hname⟩
  intro r hr
  rw [upsertMistralRow, if_pos hany] at hr
  obtain ⟨r0, hr0, rfl⟩ := List.mem_map.mp hr
  by_cases hru : (r0.name == u.name) = true <;> simp [hru, hhex r0 hr0]

/-- C4 (amended): the ingestion write path persists only records that
passed `validRawColor` and always writes a hex value; the batch Mistral
upsert preserves the hex of every row when the updated names already exist
in the store (its intended use after ingestion), and the single-name
Mistral update touches only existing rows; but — as the counterexample
shows — `saveEmbeddingsToDB` for a name NOT in the store inserts a row with
no hex value. -/
theorem store_writes_hex_and_validated :
    (∀ (embed : String → Option String) (raw : RawColor) (p : PreppedColor),
      prepColorEntry embed raw = some p → validRawColor raw = some true) ∧
    (∀ (p : PreppedColor) (s : List DBRow), ∀ r ∈ saveColorEntry p s,
      r.name = p.name → r.hex = some p.hex) ∧
    (∀ (us : List MistralUpdate) (s : List DBRow),
      (∀ r ∈ s, r.hex.isSome = true) →
      (∀ u ∈ us, ∃ r ∈ s, r.name = u.name) →
      ∀ r ∈ saveEmbeddingsToDB us s, r.hex.isSome = true) ∧
    (∀ (nm emb : String) (s : List DBRow),
      (∀ r ∈ s, r.hex.isSome = true) →
      ∀ r ∈ updateMistralByName nm emb s, r.hex.isSome = true) := by
  refine ⟨?_, ?_, ?_, ?_⟩
  · intro embed raw p hp
    unfold prepColorEntry at hp
    rcases hval : validRawColor raw with _ | b
    · rw [hval] at hp
      exact absurd hp (by simp)
    · rcases b with _ | _
      · rw [hval] at hp
        exact absurd hp (by simp)
      · rfl
  · intro p s r hr hname
    by_cases hs : (s.any fun t => t.name == p.name) = true
    · rw [saveColorEntry, if_pos hs] at hr
      obtain ⟨r0, _, rfl⟩ := List.mem_map.mp hr
      by_cases hr0 : (r0.name == p.name) = true
      · simp [hr0]
      · rw [if_neg hr0] at hname ⊢
        exact absurd (beq_iff_eq.mpr hname) hr0
    · rw [saveColorEntry, if_neg hs] at hr
      rcases List.mem_append.mp hr with hleft | hright
      · have hc : (s.any fun t => t.name == p.name) = true :=
          List.any_eq_true.mpr ⟨r, hleft, beq_iff_eq.mpr hname⟩
        exact absurd hc hs
      · have hrnew : r = ⟨p.name, some p.hex, some p.is_good_name,
            some p.embedding_small, none⟩ := by simpa using hright
        subst hrnew
        rfl
  · intro us
    induction us with
    | nil => intro s hhex _ r hr; exact hhex r hr
    | cons u rest ih =>
      intro s hhex hnames r hr
      rw [saveEmbeddingsToDB, List.foldl_cons] at hr
      have hmem : ∃ t ∈ s, t.name = u.name :=
        hnames u (List.mem_cons_self u rest)
      refine ih (upsertMistralRow u s)
        (upsertMistralRow_keeps_hex u s hmem hhex)
        (fun u2 hu2 => upsertMistralRow_keeps_names u s u2.name
          (hnames u2 (List.mem_cons_of_mem u hu2))) r hr
  · intro nm emb s hhex r hr
    obtain ⟨r0, hr0, rfl⟩ := List.mem_map.mp hr
    by_cases hru : (r0.name == nm) = true <;> simp [hru, hhex r0 hr0]

/-- C4 counterexample: the Mistral batch upsert of a name absent from the
store persists a row with NO hex value — a partial record reaches the
store. -/
theorem saveEmbeddingsToDB_partial_row_counterexample :
    saveEmbeddingsToDB [⟨"x", some "E"⟩] [] =
      [⟨"x", none, none, none, some "E"⟩] ∧
    (saveEmbeddingsToDB [⟨"x", some "E"⟩] []).all
      (fun r => r.hex.isSome) = false := by
  decide

/-- C4 witness: the amended guarantees evaluated on concrete stores with
the updated name present. -/
theorem store_writes_hex_and_validated_witness :
    validRawColor ⟨"a", some "#aaaaaa", true⟩ = some true ∧
    (saveEmbeddingsToDB [⟨"b", some "E"⟩]
      [⟨"b", some "bbbbbb", some false, some "F", none⟩]).all
        (fun r => r.hex.isSome) = true ∧
    (updateMistralByName "b" "E"
      [⟨"b", some "bbbbbb", some false, some "F", none⟩]).all
        (fun r => r.hex.isSome) = true := by
  refine ⟨?_, ?_, ?_⟩
  · exact store_writes_hex_and_validated.1 (fun _ => some "E")
      ⟨"a", some "#aaaaaa", true⟩ ⟨"a", "aaaaaa", true, "E"⟩ (by decide)
  · exact List.all_eq_true.mpr fun r hr =>
      store_writes_hex_and_validated.2.2.1 [⟨"b", some "E"⟩]
        [⟨"b", some "bbbbbb", some false, some "F", none⟩]
        (by decide) (by decide) r hr
  · exact List.all_eq_true.mpr fun r hr =>
      store_writes_hex_and_validated.2.2.2 "b" "E"
        [⟨"b", some "bbbbbb", some false, some "F", none⟩]
        (by decide) r hr


/-- Folding the per-row try/catch body over any row list from any starting
state: the error counter advances by exactly the number of failing rows and
the store ends as the fold of the successful rows' saves. -/
theorem processRow_foldl_spec (embed : String → Option String) :
    ∀ (rows : List String) (s : List DBRow) (n : Nat),
      rows.foldl (processRow embed) (s, n) =
        ((rows.filterMap fun t => prepColorEntry embed (readColorRow t)).foldl
          (fun st pp => saveColorEntry pp st) s,
         n + (rows.filter fun t =>
            (prepColorEntry embed (readColorRow t)).isNone).length)
  | [], s, n => by simp
  | t :: rows, s, n => by
    rw [List.foldl_cons, List.filterMap_cons, List.filter_cons]
    rcases hp : prepColorEntry embed (readColorRow t) with _ | pp
    · have hstep : processRow embed (s, n) t = (s, n + 1) := by
        simp [processRow, hp]
      rw [hstep, processRow_foldl_spec embed rows s (n + 1)]
      simp [hp]
      omega
    · have hstep : processRow embed (s, n) t = (saveColorEntry pp s, n) := by
        simp [processRow, hp]
      rw [hstep, processRow_foldl_spec embed rows (saveColorEntry pp s) n]
      simp [hp]

/-- C6: `runFullScript` never aborts: over any source file, its error count
equals exactly the number of rows whose processing fails, and its final
store is the fold of the saves of every successfully processed row — every
non-failing row is processed and persisted regardless of failures before or
after it; in particular a run in which exactly one row fails reports
exactly one failure. -/
theorem runFullScript_continue_on_error (embed : String → Option String)
    (file : String) (maxRows : Option Nat) :
    (runFullScript embed file maxRows).2 =
      ((getColorRows file true maxRows).filter fun t =>
        (prepColorEntry embed (readColorRow t)).isNone).length ∧
    (runFullScript embed file maxRows).1 =
      ((getColorRows file true maxRows).filterMap fun t =>
        prepColorEntry embed (readColorRow t)).foldl
          (fun st pp => saveColorEntry pp st) [] ∧
    (((getColorRows file true maxRows).filter fun t =>
        (prepColorEntry embed (readColorRow t)).isNone).length = 1 →
      (runFullScript embed file maxRows).2 = 1) := by
  have h := processRow_foldl_spec embed (getColorRows file true maxRows) [] 0
  rw [runFullScript, h]
  refine ⟨by simp, rfl, ?_⟩
  intro h1
  simp [h1]

/-- C6 witness: a five-row file whose third row is malformed (no comma, so
no hex) yields exactly one reported failure while the other four rows are
all persisted. -/
theorem runFullScript_continue_on_error_witness :
    (((getColorRows
        "h\nr1,#aaaaaa,x\nr2,#bbbbbb,\nbad\nr4,#cccccc,\nr5,#dddddd,x"
        true none).filter fun t =>
          (prepColorEntry (fun _ => some "E") (readColorRow t)).isNone).length
      = 1) ∧
    (runFullScript (fun _ => some "E")
        "h\nr1,#aaaaaa,x\nr2,#bbbbbb,\nbad\nr4,#cccccc,\nr5,#dddddd,x"
        none).2 = 1 ∧
    ((runFullScript (fun _ => some "E")
        "h\nr1,#aaaaaa,x\nr2,#bbbbbb,\nbad\nr4,#cccccc,\nr5,#dddddd,x"
        none).1.map DBRow.name) = ["r1", "r2", "r4", "r5"] := by
  refine ⟨by decide, ?_, by decide⟩
  exact (runFullScript_continue_on_error (fun _ => some "E")
    "h\nr1,#aaaaaa,x\nr2,#bbbbbb,\nbad\nr4,#cccccc,\nr5,#dddddd,x"
    none).2.2 (by decide)


/-- Dropping then chaining: the `[a, b)` slice of a list followed by the
tail from `b` is the tail from `a`, for `a ≤ b`. -/
theorem take_drop_chain {α : Type} (l : List α) (a b : Nat) (h : a ≤ b) :
    (l.take b).drop a ++ l.drop b = l.drop a := by
  have base := List.drop_take_append_drop l a (b - a)
  rw [show a + (b - a) = b by omega] at base
  rw [List.drop_take]
  exact base

/-- `updateCycleModel` is one batch upsert of the per-name updates of its
selected range (the empty-range early return coincides with upserting an
empty batch). -/
theorem updateCycleModel_eq_save (f : String → String) (file : String)
    (a b : Nat) (s : List DBRow) :
    updateCycleModel f file a b s =
      saveEmbeddingsToDB ((getColorNames file true a b).map
        (fun n => ⟨n, some (f n)⟩)) s := by
  unfold updateCycleModel
  by_cases h : (getColorNames file true a b).length = 0
  · rw [if_pos h, List.length_eq_zero.mp h]
    rfl
  · rw [if_neg h]

/-- The JS slice pattern of `getColorNames` — empty past the end, else
`slice(start, min(stop, length))` — splits over chained offset ranges. -/
theorem slice_split {α β : Type} (l : List α) (g : α → β) (a b c : Nat)
    (hab : a ≤ b) (hbc : b ≤ c) :
    (if l.length ≤ a then []
      else ((l.take (min b l.length)).drop a).map g) ++
    (if l.length ≤ b then []
      else ((l.take (min c l.length)).drop b).map g) =
    (if l.length ≤ a then []
      else ((l.take (min c l.length)).drop a).map g) := by
  by_cases h1 : l.length ≤ a
  · have h2 : l.length ≤ b := le_trans h1 hab
    rw [if_pos h1, if_pos h2, if_pos h1]
    rfl
  · rw [if_neg h1]
    by_cases h2 : l.length ≤ b
    · rw [if_pos h2, if_neg h1]
      have h3 : l.length ≤ c := le_trans h2 hbc
      rw [Nat.min_eq_right h2, Nat.min_eq_right h3, List.append_nil]
    · rw [if_neg h2, if_neg h1]
      have hb : b < l.length := Nat.lt_of_not_le h2
      have hmb : min b l.length = b := Nat.min_eq_left (le_of_lt hb)
      have hbm : b ≤ min c l.length := le_min hbc (le_of_lt hb)
      rw [hmb, ← List.map_append]
      have htake : l.take b = (l.take (min c l.length)).take b := by
        rw [List.take_take, Nat.min_eq_left hbm]
      rw [htake, take_drop_chain (l.take (min c l.length)) a b hab]

/-- C7: for offsets `a ≤ b ≤ c`, the names selected for the range `[a, b)`
followed by those of `[b, c)` are exactly the names of `[a, c)` — no row
skipped, none repeated — and consequently running the Mistral update cycle
over `[a, b)` then `[b, c)` leaves the same store as one pass over
`[a, c)`. -/
theorem getColorNames_range_split (file : String) (a b c : Nat)
    (hab : a ≤ b) (hbc : b ≤ c) :
    getColorNames file true a b ++ getColorNames file true b c =
      getColorNames file true a c ∧
    ∀ (f : String → String) (s : List DBRow),
      updateCycleModel f file b c (updateCycleModel f file a b s) =
        updateCycleModel f file a c s := by
  have hform : ∀ x y, getColorNames file true x y =
      (if ((splitChar '\n' file).drop 1).length ≤ x then []
       else ((((splitChar '\n' file).drop 1).take
          (min y ((splitChar '\n' file).drop 1).length)).drop x).map
            (fun row => (splitChar ',' row).headD "")) := fun x y => rfl
  have hnames : getColorNames file true a b ++ getColorNames file true b c =
      getColorNames file true a c := by
    rw [hform a b, hform b c, hform a c]
    exact slice_split _ _ a b c hab hbc
  refine ⟨hnames, fun f s => ?_⟩
  rw [updateCycleModel_eq_save, updateCycleModel_eq_save,
    updateCycleModel_eq_save, ← hnames, List.map_append]
  rw [saveEmbeddingsToDB, saveEmbeddingsToDB, saveEmbeddingsToDB,
    List.foldl_append]

/-- C7 witness: splitting a three-row file at offsets 0 ≤ 1 ≤ 3 selects
the same rows as one pass, and the chained update cycles agree on the
resulting store. -/
theorem getColorNames_range_split_witness :
    getColorNames "h\nr1,1\nr2,2\nr3,3" true 0 3 = ["r1", "r2", "r3"] ∧
    getColorNames "h\nr1,1\nr2,2\nr3,3" true 0 1 ++
        getColorNames "h\nr1,1\nr2,2\nr3,3" true 1 3 =
      getColorNames "h\nr1,1\nr2,2\nr3,3" true 0 3 ∧
    updateCycleModel (fun _ => "E") "h\nr1,1\nr2,2\nr3,3" 1 3
        (updateCycleModel (fun _ => "E") "h\nr1,1\nr2,2\nr3,3" 0 1 []) =
      updateCycleModel (fun _ => "E") "h\nr1,1\nr2,2\nr3,3" 0 3 [] := by
  refine ⟨by decide, ?_, ?_⟩
  · exact (getColorNames_range_split "h\nr1,1\nr2,2\nr3,3" 0 1 3
      (by decide) (by decide)).1
  · exact (getColorNames_range_split "h\nr1,1\nr2,2\nr3,3" 0 1 3
      (by decide) (by decide)).2 (fun _ => "E") []

/-- C1: the search result list is sorted in non-decreasing order of its
distance field, for every query distance function, every match count and
every store.  The model is a pure function of the query embedding and the
store, so repeated identical queries return the identical list, with ties
broken deterministically by stored order (stable sort). -/
theorem searchEmbedding_sorted_by_distance (dist : DBRow → Int)
    (matchCount : Nat) (store : List DBRow) :
    List.Sorted (· ≤ ·)
      ((searchEmbedding dist matchCount store).map SearchResult.distance) := by
  unfold searchEmbedding
  rw [List.map_map]
  letI : IsTotal DBRow (fun a b => dist a ≤ dist b) :=
    ⟨fun a b => Int.le_total (dist a) (dist b)⟩
  letI : IsTrans DBRow (fun a b => dist a ≤ dist b) :=
    ⟨fun _ _ _ hab hbc => le_trans hab hbc⟩
  have hs : List.Sorted (fun a b => dist a ≤ dist b)
      (store.insertionSort (fun a b => dist a ≤ dist b)) :=
    List.sorted_insertionSort _ store
  have htake : List.Sorted (fun a b => dist a ≤ dist b)
      ((store.insertionSort (fun a b => dist a ≤ dist b)).take matchCount) :=
    List.Pairwise.sublist (List.take_sublist _ _) hs
  rw [List.Sorted, List.pairwise_map]
  exact htake

end ColorFinder
